import Mathlib

/-!
Verification of the stock-insights data-acquisition core.

Shallow embedding of the TypeScript sources:
  * `stockInsights.service.ts` — the pure Insight Engine
    (`calculateInsights`, `calculateDayChange`, `calculateTrend`,
    `calculate52WeekHighLow`, `roundToTwo`);
  * `alphaVantage.service.ts` — the rate-limited dispatcher
    (`queueRequest` / `processQueue`), the cache-aside fetcher
    (`getDailyTimeSeries`), the normalizer (`normalizeTimeSeriesData`)
    and `validateSymbol`;
  * `supabase.service.ts` — the cache store operations
    (`getCachedStockData`, `cacheStockData`).

Modelling conventions:
  * JavaScript numbers are modelled as rationals (ℚ); `Math.round` is
    round-half-up, `Math.round x = ⌊x + 1/2⌋`.
  * Dates are modelled by their epoch timestamp (ℕ, milliseconds), which
    is exactly what the source compares (`new Date(d).getTime()`).
  * Provider payload fields arrive as decimal strings and are parsed with
    `parseFloat`; the claims under verification never exercise a parse
    failure, so the embedding carries the already-parsed rational values.
-/

namespace StockApp

/-- Source `NormalizedDailyData` from `alphaVantage.service.ts`: one trading day.
The source field `open` is a Lean keyword, hence `open_`. -/
structure DailyData where
  date : ℕ
  open_ : ℚ
  high : ℚ
  low : ℚ
  close : ℚ
  volume : ℚ
  deriving DecidableEq, Repr, Inhabited

/-- Trend direction, the `'up' | 'down' | 'flat'` union of the source. -/
inductive Direction where
  | up
  | down
  | flat
  deriving DecidableEq, Repr

/-- The `{ absolute, percentage }` record returned by `calculateDayChange`. -/
structure ChangeRec where
  absolute : ℚ
  percentage : ℚ
  deriving DecidableEq, Repr

/-- The `{ direction, percentage }` record returned by `calculateTrend`. -/
structure TrendRec where
  direction : Direction
  percentage : ℚ
  deriving DecidableEq, Repr

/-- Source `StockInsights` from `stockInsights.service.ts`. -/
structure StockInsights where
  symbol : String
  latestPrice : ℚ
  latestDate : ℕ
  dayChange : ChangeRec
  trend7Day : TrendRec
  trend30Day : TrendRec
  volume : ℚ
  high52Week : Option ℚ
  low52Week : Option ℚ
  peRatio : Option ℚ
  deriving DecidableEq, Repr

/-- Source `roundToTwo` from `stockInsights.service.ts`:
`Math.round(num * 100) / 100`, with `Math.round x = ⌊x + 1/2⌋`
(JavaScript rounds half toward +∞). -/
def roundToTwo (num : ℚ) : ℚ :=
  (⌊num * 100 + 1 / 2⌋ : ℚ) / 100

/-- Source `calculateDayChange` from `stockInsights.service.ts`.  `previous` is
`dailyData[1]`, which is `undefined` (here `none`) on a one-point series. -/
def calculateDayChange (latest : DailyData) (previous : Option DailyData) :
    ChangeRec :=
  match previous with
  | none => ⟨0, 0⟩
  | some p =>
      let absolute := latest.close - p.close
      let percentage := absolute / p.close * 100
      ⟨roundToTwo absolute, roundToTwo percentage⟩

/-- The `pastPrice` expression inside `calculateTrend`:
`dailyData[days]?.close || dailyData[dailyData.length - 1].close`.
The JavaScript `||` falls through to the last element both when the index
is out of range and when the close price is `0` (falsy). -/
def trendPastPrice (dailyData : List DailyData) (days : ℕ) : ℚ :=
  match dailyData[days]? with
  | some d =>
      if d.close = 0 then (dailyData.getD (dailyData.length - 1) default).close
      else d.close
  | none => (dailyData.getD (dailyData.length - 1) default).close

/-- Source `calculateTrend` from `stockInsights.service.ts`. -/
def calculateTrend (dailyData : List DailyData) (days : ℕ) : TrendRec :=
  if dailyData.length < days + 1 then ⟨Direction.flat, 0⟩
  else
    let currentPrice := (dailyData.getD 0 default).close
    let pastPrice := trendPastPrice dailyData days
    let change := currentPrice - pastPrice
    let percentage := change / pastPrice * 100
    let direction :=
      if percentage > 1 / 2 then Direction.up
      else if percentage < -(1 / 2) then Direction.down
      else Direction.flat
    ⟨direction, roundToTwo percentage⟩

/-- Maximum of a list as `Math.max(...xs)` computes it on a non-empty list. -/
def listMax : List ℚ → ℚ
  | [] => 0
  | x :: xs => xs.foldl max x

/-- Minimum of a list as `Math.min(...xs)` computes it on a non-empty list. -/
def listMin : List ℚ → ℚ
  | [] => 0
  | x :: xs => xs.foldl min x

/-- Source `calculate52WeekHighLow` from `stockInsights.service.ts`.  Returns the
pair `(high52Week, low52Week)`; `{}` in the source means both `undefined`,
here `(none, none)`. -/
def calculate52WeekHighLow (dailyData : List DailyData) :
    Option ℚ × Option ℚ :=
  let tradingDays := min 252 dailyData.length
  if tradingDays < 30 then (none, none)
  else
    let relevantData := dailyData.take tradingDays
    let high52Week := listMax (relevantData.map (·.high))
    let low52Week := listMin (relevantData.map (·.low))
    (some (roundToTwo high52Week), some (roundToTwo low52Week))

/-- Source `calculateInsights` from `stockInsights.service.ts`.  The source throws
on an empty series (modelled as `none`).  The `peRatio` argument stands for
the already-parsed optional `overview.PERatio`; no claim under verification
exercises its parsing. -/
def calculateInsights (symbol : String) (dailyData : List DailyData)
    (peRatio : Option ℚ) : Option StockInsights :=
  if dailyData.length = 0 then none
  else
    let latest := dailyData.getD 0 default
    let previous := dailyData[1]?
    let hl := calculate52WeekHighLow dailyData
    some
      { symbol := symbol
        latestPrice := latest.close
        latestDate := latest.date
        dayChange := calculateDayChange latest previous
        trend7Day := calculateTrend dailyData 7
        trend30Day := calculateTrend dailyData 30
        volume := latest.volume
        high52Week := hl.1
        low52Week := hl.2
        peRatio := peRatio }

/-- Character class `[A-Z0-9.]` of the symbol regex. -/
def isSymbolChar (c : Char) : Bool :=
  ('A' ≤ c && c ≤ 'Z') || ('0' ≤ c && c ≤ '9') || c = '.'

/-- Source `validateSymbol` from `alphaVantage.service.ts`:
`/^[A-Z0-9.]{1,10}$/.test(symbol.toUpperCase())`.  The anchored regex
accepts exactly the strings of 1 to 10 characters drawn from the class. -/
def validateSymbol (symbol : String) : Bool :=
  let u := symbol.data.map Char.toUpper
  1 ≤ u.length && u.length ≤ 10 && u.all isSymbolChar

/-! ## Rate-Limited Dispatcher (`queueRequest` / `processQueue`)

The dispatcher runs on a single-threaded event loop (spec §5).  A caller
of `queueRequest` pushes a wrapper onto `requestQueue` (strict FIFO) and
invokes `processQueue`; the `isProcessingQueue` flag ensures at most one
drain loop.  The drain loop pops the head, awaits it (the wrapper settles
that job's own promise with its own outcome, success or failure), then,
only if the queue is still non-empty, waits `minRequestInterval` before
the next pop; when the queue empties the flag is cleared.

We model a whole execution by its submission list, each job carrying its
submission time (`arrival`), how long its provider call runs
(`duration`) and its outcome (`result`).  Submission order equals list
order; in a real run arrival times are nondecreasing along the list.
The event-loop semantics collapses to a recursion on the list carrying
the completion time of the previously executed job:

  * first job ever: the simultaneous `processQueue` starts it at its
    arrival time;
  * if the next job arrived no later than the previous completion, it was
    sitting in the queue when the drain loop re-checked
    `requestQueue.length > 0`, so the loop sleeps `minRequestInterval`
    and starts it exactly at `previous completion + minRequestInterval`;
  * otherwise the queue was empty at that re-check: the drain loop exits,
    `isProcessingQueue` is cleared, and the job's own `processQueue` call
    starts a fresh drain immediately at its arrival time — with no
    leading delay (source: the delay sits between iterations only).
-/

instance decEqExcept {ε α : Type} [DecidableEq ε] [DecidableEq α] :
    DecidableEq (Except ε α) := fun a b =>
  match a, b with
  | Except.ok x, Except.ok y =>
      if h : x = y then isTrue (by rw [h]) else isFalse (by simp [h])
  | Except.error x, Except.error y =>
      if h : x = y then isTrue (by rw [h]) else isFalse (by simp [h])
  | Except.ok _, Except.error _ => isFalse (by simp)
  | Except.error _, Except.ok _ => isFalse (by simp)

/-- Source `minRequestInterval` from `alphaVantage.service.ts`: 12000 ms. -/
def minRequestInterval : ℕ := 12000

/-- One submission to the dispatcher: submission time, provider-call
duration and the job's own outcome (`requestFn` resolving or rejecting). -/
structure Job where
  arrival : ℕ
  duration : ℕ
  result : Except String ℕ
  deriving DecidableEq, Repr, Inhabited

/-- One executed job in the trace: its start and completion times and the
value its promise settled with (the wrapper in `queueRequest` resolves or
rejects with exactly the job's own outcome). -/
structure Exec where
  job : Job
  start : ℕ
  comp : ℕ
  settled : Except String ℕ
  deriving DecidableEq, Repr, Inhabited

/-- When a job starts, given the completion time of the previously
executed job (`none` before the very first execution): a job already
queued at that completion starts after the `minRequestInterval` delay of
the drain loop; otherwise the drain had exited (flag cleared) and the
job's own `processQueue` call starts it at its arrival time. -/
def startOf : Option ℕ → Job → ℕ
  | none, j => j.arrival
  | some comp, j =>
      if j.arrival ≤ comp then comp + minRequestInterval else j.arrival

/-- The drain recursion.  `prev` is the completion time of the previously
executed job (`none` before the very first execution). -/
def runFrom : Option ℕ → List Job → List Exec
  | _, [] => []
  | prev, j :: rest =>
      ⟨j, startOf prev j, startOf prev j + j.duration, j.result⟩ ::
        runFrom (some (startOf prev j + j.duration)) rest

/-- Full dispatcher run of a submission list. -/
def runDispatcher (jobs : List Job) : List Exec :=
  runFrom none jobs

/-- Start and completion times only, forgetting outcomes. -/
def timing (jobs : List Job) : List (ℕ × ℕ) :=
  (runDispatcher jobs).map fun e => (e.start, e.comp)

/-- Replace a job's outcome with a fixed success, keeping its timing data. -/
def withOkResult (j : Job) : Job :=
  { j with result := Except.ok 0 }

/-! ## Cache-Aside Fetcher (`getDailyTimeSeries`) and Cache Store

`supabase.service.ts` stores one row per `(symbol, data_type)` key
(schema: `UNIQUE(symbol, data_type)`); `getCachedStockData` filters to
rows with `fetched_at >= now − 24h` and returns the payload or `null`
(read errors also yield `null`).  `cacheStockData` upserts and swallows
any write error (logged, never thrown).  `getDailyTimeSeries` checks the
cache, and on a miss routes exactly one fetch through the dispatcher
(`queueRequest`), then caches and returns the fresh payload. -/

/-- One raw provider entry for a date (values already parsed, see header). -/
structure RawEntry where
  open_ : ℚ
  high : ℚ
  low : ℚ
  close : ℚ
  volume : ℚ
  deriving DecidableEq, Repr

/-- An `AlphaVantageResponse`: the metadata fields the fetcher reads and
the `Time Series (Daily)` map as a date-keyed association list. -/
structure Payload where
  metaSymbol : String
  lastRefreshed : String
  timeSeries : List (ℕ × RawEntry)
  deriving DecidableEq, Repr

/-- Source `normalizeTimeSeriesData` from `alphaVantage.service.ts`: map entries
to records and sort most-recent-first (`new Date(b.date) − new Date(a.date)`). -/
def normalizeTimeSeriesData (timeSeries : List (ℕ × RawEntry)) :
    List DailyData :=
  (timeSeries.map fun p =>
      ⟨p.1, p.2.open_, p.2.high, p.2.low, p.2.close, p.2.volume⟩).mergeSort
    fun a b => decide (b.date ≤ a.date)

/-- Source `StockDataResult` from `alphaVantage.service.ts`. -/
structure StockDataResult where
  symbol : String
  lastRefreshed : String
  dailyData : List DailyData
  fromCache : Bool
  deriving DecidableEq, Repr

/-- A row of the `stock_data_cache` table. -/
structure CacheRow where
  symbol : String
  data_type : String
  data : Payload
  fetched_at : ℕ
  deriving DecidableEq, Repr

/-- 24 hours in milliseconds (`setHours(getHours() − 24)`). -/
def hours24 : ℕ := 24 * 60 * 60 * 1000

/-- The external state a read runs against: the cache table, the current
time, the outcome the provider would give each symbol (reached only
through the dispatcher), and whether a cache write would succeed. -/
structure World where
  cache : List CacheRow
  now : ℕ
  fetchResult : String → Except String Payload
  cacheWriteOk : Bool

/-- JavaScript `toUpperCase` on the character sequence (ASCII letters, as
symbols are). -/
def toUpperStr (s : String) : String :=
  ⟨s.data.map Char.toUpper⟩

/-- Whether a row matches the `(symbol, data_type)` key queried. -/
def rowMatches (symbol dataType : String) (r : CacheRow) : Bool :=
  r.symbol = toUpperStr symbol && r.data_type = dataType

/-- Source `getCachedStockData` from `supabase.service.ts`: the key-matching row
with `fetched_at ≥ now − 24h`, or `none` (no row, stale row, read error). -/
def getCachedStockData (w : World) (symbol dataType : String) :
    Option Payload :=
  (w.cache.find? fun r =>
      rowMatches symbol dataType r && w.now - hours24 ≤ r.fetched_at).map
    (·.data)

/-- Source `cacheStockData` from `supabase.service.ts`: upsert on the
`(symbol, data_type)` key with `fetched_at = now`.  A write error leaves
the table unchanged and is only logged — the function never throws. -/
def cacheStockData (w : World) (symbol dataType : String) (data : Payload) :
    World :=
  if w.cacheWriteOk then
    { w with
      cache :=
        ⟨toUpperStr symbol, dataType, data, w.now⟩ ::
          w.cache.filter fun r => !rowMatches symbol dataType r }
  else w

/-- Source `getDailyTimeSeries` from `alphaVantage.service.ts`.  Returns the
caller-visible outcome, the number of jobs submitted to the dispatcher,
and the final world. -/
def getDailyTimeSeries (w : World) (symbol : String) :
    Except String StockDataResult × ℕ × World :=
  let dataType := "TIME_SERIES_DAILY"
  match getCachedStockData w symbol dataType with
  | some cached =>
      (Except.ok
        ⟨cached.metaSymbol, cached.lastRefreshed,
          normalizeTimeSeriesData cached.timeSeries, true⟩,
        0, w)
  | none =>
      match w.fetchResult symbol with
      | Except.error e => (Except.error e, 1, w)
      | Except.ok data =>
          (Except.ok
            ⟨data.metaSymbol, data.lastRefreshed,
              normalizeTimeSeriesData data.timeSeries, false⟩,
            1, cacheStockData w symbol dataType data)

/-! ## Concrete inputs used by the witness and counterexample theorems -/

/-- A descending series of `n` days with highs 5, lows 1, closes 2. -/
def sampleSeries (n : ℕ) : List DailyData :=
  (List.range n).map fun i => ⟨n - i, 1, 5, 1, 2, 3⟩

/-- An 8-point series whose head close is exactly +0.5 % above the close
seven trading days earlier (201 against 200). -/
def halfPctSeries : List DailyData :=
  [⟨8, 1, 1, 1, 201, 1⟩, ⟨7, 1, 1, 1, 200, 1⟩, ⟨6, 1, 1, 1, 200, 1⟩,
    ⟨5, 1, 1, 1, 200, 1⟩, ⟨4, 1, 1, 1, 200, 1⟩, ⟨3, 1, 1, 1, 200, 1⟩,
    ⟨2, 1, 1, 1, 200, 1⟩, ⟨1, 1, 1, 1, 200, 1⟩]

/-- Two jobs: the second is submitted 1000 ms after the first completed,
i.e. just after the queue drained empty. -/
def gapJobs : List Job :=
  [⟨0, 1000, Except.ok 1⟩, ⟨2000, 1000, Except.ok 2⟩]

/-- A burst: two jobs submitted at the same instant. -/
def burstJobs : List Job :=
  [⟨0, 1000, Except.ok 1⟩, ⟨0, 1000, Except.ok 2⟩]

/-- A burst of three jobs whose middle job fails. -/
def mixedJobs : List Job :=
  [⟨0, 1000, Except.ok 1⟩, ⟨0, 1000, Except.error "boom"⟩,
    ⟨0, 500, Except.ok 3⟩]

/-- A small provider payload. -/
def samplePayload : Payload :=
  ⟨"AAPL", "2026-01-02", [(1, ⟨1, 2, 1, 2, 10⟩), (2, ⟨2, 3, 1, 3, 20⟩)]⟩

/-- Another provider payload, standing for a fresh fetch. -/
def freshPayload : Payload :=
  ⟨"AAPL", "2026-01-03", [(3, ⟨1, 2, 1, 2, 10⟩)]⟩

/-- A world whose cache holds a fresh row for `(AAPL, TIME_SERIES_DAILY)`
(fetched 1000 ms ago); the provider would fail if it were reached. -/
def hitWorld : World :=
  { cache := [⟨"AAPL", "TIME_SERIES_DAILY", samplePayload, 1000⟩]
    now := 2000
    fetchResult := fun _ => Except.error "network"
    cacheWriteOk := true }

/-- A world with an empty cache, a provider that answers `AAPL`, and a
cache store whose writes fail. -/
def missWorld : World :=
  { cache := []
    now := 2000
    fetchResult := fun s =>
      if s = "AAPL" then Except.ok freshPayload else Except.error "bad"
    cacheWriteOk := false }

/-- A world whose only cache row for the key is 25 hours old. -/
def staleWorld : World :=
  { cache := [⟨"AAPL", "TIME_SERIES_DAILY", samplePayload, 0⟩]
    now := 25 * 60 * 60 * 1000
    fetchResult := fun s =>
      if s = "AAPL" then Except.ok freshPayload else Except.error "bad"
    cacheWriteOk := true }

/-! ## Helper lemmas -/

lemma foldl_max_mem (xs : List ℚ) (a : ℚ) :
    xs.foldl max a = a ∨ xs.foldl max a ∈ xs := by
  induction xs generalizing a with
  | nil => exact Or.inl rfl
  | cons x xs ih =>
      rw [List.foldl_cons]
      rcases ih (max a x) with h | h
      · rcases max_choice a x with hm | hm
        · exact Or.inl (by rw [h, hm])
        · exact Or.inr (by rw [h, hm]; exact List.mem_cons_self x xs)
      · exact Or.inr (List.mem_cons_of_mem x h)

lemma le_foldl_max (xs : List ℚ) (a : ℚ) : a ≤ xs.foldl max a := by
  induction xs generalizing a with
  | nil => exact le_refl a
  | cons x xs ih =>
      rw [List.foldl_cons]
      exact le_trans (le_max_left a x) (ih (max a x))

lemma mem_le_foldl_max (xs : List ℚ) (a x : ℚ) (h : x ∈ xs) :
    x ≤ xs.foldl max a := by
  induction xs generalizing a with
  | nil => cases h
  | cons y ys ih =>
      rw [List.foldl_cons]
      rcases List.mem_cons.mp h with rfl | h'
      · exact le_trans (le_max_right a x) (le_foldl_max ys (max a x))
      · exact ih (max a y) h'

lemma listMax_mem (l : List ℚ) (h : l ≠ []) : listMax l ∈ l := by
  match l with
  | [] => exact absurd rfl h
  | x :: xs =>
      rcases foldl_max_mem xs x with h' | h'
      · rw [listMax, h']; exact List.mem_cons_self x xs
      · rw [listMax]; exact List.mem_cons_of_mem x h'

lemma le_listMax (l : List ℚ) (x : ℚ) (h : x ∈ l) : x ≤ listMax l := by
  match l with
  | [] => cases h
  | y :: ys =>
      rcases List.mem_cons.mp h with rfl | h'
      · exact le_foldl_max ys x
      · exact mem_le_foldl_max ys y x h'

lemma foldl_min_mem (xs : List ℚ) (a : ℚ) :
    xs.foldl min a = a ∨ xs.foldl min a ∈ xs := by
  induction xs generalizing a with
  | nil => exact Or.inl rfl
  | cons x xs ih =>
      rw [List.foldl_cons]
      rcases ih (min a x) with h | h
      · rcases min_choice a x with hm | hm
        · exact Or.inl (by rw [h, hm])
        · exact Or.inr (by rw [h, hm]; exact List.mem_cons_self x xs)
      · exact Or.inr (List.mem_cons_of_mem x h)

lemma foldl_min_le (xs : List ℚ) (a : ℚ) : xs.foldl min a ≤ a := by
  induction xs generalizing a with
  | nil => exact le_refl a
  | cons x xs ih =>
      rw [List.foldl_cons]
      exact le_trans (ih (min a x)) (min_le_left a x)

lemma foldl_min_le_mem (xs : List ℚ) (a x : ℚ) (h : x ∈ xs) :
    xs.foldl min a ≤ x := by
  induction xs generalizing a with
  | nil => cases h
  | cons y ys ih =>
      rw [List.foldl_cons]
      rcases List.mem_cons.mp h with rfl | h'
      · exact le_trans (foldl_min_le ys (min a x)) (min_le_right a x)
      · exact ih (min a y) h'

lemma listMin_mem (l : List ℚ) (h : l ≠ []) : listMin l ∈ l := by
  match l with
  | [] => exact absurd rfl h
  | x :: xs =>
      rcases foldl_min_mem xs x with h' | h'
      · rw [listMin, h']; exact List.mem_cons_self x xs
      · rw [listMin]; exact List.mem_cons_of_mem x h'

lemma listMin_le (l : List ℚ) (x : ℚ) (h : x ∈ l) : listMin l ≤ x := by
  match l with
  | [] => cases h
  | y :: ys =>
      rcases List.mem_cons.mp h with rfl | h'
      · exact foldl_min_le ys x
      · exact foldl_min_le_mem ys y x h'

lemma getD_eq_getElem {α : Type} [Inhabited α] (l : List α) (i : ℕ)
    (h : i < l.length) : l.getD i default = l[i] := by
  rw [List.getD_eq_getElem?_getD, List.getElem?_eq_getElem h, Option.getD_some]

lemma getD_mem {α : Type} [Inhabited α] (l : List α) (i : ℕ)
    (h : i < l.length) : l.getD i default ∈ l := by
  rw [getD_eq_getElem l i h]
  exact List.getElem_mem h

/-! ## Claim theorems -/

/-- C6: for every non-empty series the Insight Engine's `dayChange` is
`{absolute := 0, percentage := 0}` when fewer than 2 points exist, and
otherwise `absolute = series[0].close − series[1].close` and
`percentage = absolute / series[1].close × 100`, both rounded to two
decimal places with `roundToTwo` (`round(x*100)/100`). -/
theorem dayChange_spec (symbol : String) (pe : Option ℚ)
    (s : List DailyData) (hs : s ≠ []) :
    (s.length < 2 →
      (calculateInsights symbol s pe).map (·.dayChange) = some ⟨0, 0⟩) ∧
    (2 ≤ s.length →
      (calculateInsights symbol s pe).map (·.dayChange) =
        some
          ⟨roundToTwo ((s.getD 0 default).close - (s.getD 1 default).close),
            roundToTwo (((s.getD 0 default).close - (s.getD 1 default).close) /
              (s.getD 1 default).close * 100)⟩) := by
  match s with
  | [] => exact absurd rfl hs
  | [a] =>
      constructor
      · intro _
        simp [calculateInsights, calculateDayChange]
      · intro h
        simp at h
  | a :: b :: t =>
      constructor
      · intro h
        simp [List.length_cons] at h
        omega
      · intro _
        simp [calculateInsights, calculateDayChange]

/-- Counterexample to C6 as stated: the empty series has fewer than 2
points, yet the engine throws (`No data available to calculate insights`)
instead of reporting a `{0, 0}` day change — no insights record is
produced at all. -/
theorem dayChange_empty_counterexample :
    (calculateInsights "AAPL" ([] : List DailyData) none).map (·.dayChange) ≠
      some ⟨0, 0⟩ := by
  decide

/-- Witness for C6 on a concrete two-point series. -/
theorem dayChange_spec_witness :
    (calculateInsights "AAPL" (sampleSeries 2) none).map (·.dayChange) =
      some
        ⟨roundToTwo (((sampleSeries 2).getD 0 default).close -
            ((sampleSeries 2).getD 1 default).close),
          roundToTwo ((((sampleSeries 2).getD 0 default).close -
              ((sampleSeries 2).getD 1 default).close) /
            ((sampleSeries 2).getD 1 default).close * 100)⟩ :=
  (dayChange_spec "AAPL" none (sampleSeries 2) (by decide)).2 (by decide)

lemma direction_if_up (p : ℚ) :
    (if p > 1 / 2 then Direction.up
      else if p < -(1 / 2) then Direction.down else Direction.flat) =
      Direction.up ↔ 1 / 2 < p := by
  by_cases h1 : p > 1 / 2
  · rw [if_pos h1]
    exact iff_of_true rfl h1
  · rw [if_neg h1]
    by_cases h2 : p < -(1 / 2)
    · rw [if_pos h2]
      exact iff_of_false (by decide) h1
    · rw [if_neg h2]
      exact iff_of_false (by decide) h1

lemma direction_if_down (p : ℚ) :
    (if p > 1 / 2 then Direction.up
      else if p < -(1 / 2) then Direction.down else Direction.flat) =
      Direction.down ↔ p < -(1 / 2) := by
  by_cases h1 : p > 1 / 2
  · rw [if_pos h1]
    exact iff_of_false (by decide) (by linarith)
  · rw [if_neg h1]
    by_cases h2 : p < -(1 / 2)
    · rw [if_pos h2]
      exact iff_of_true rfl h2
    · rw [if_neg h2]
      exact iff_of_false (by decide) h2

lemma direction_if_eq_half (p : ℚ) (h : p = 1 / 2) :
    (if p > 1 / 2 then Direction.up
      else if p < -(1 / 2) then Direction.down else Direction.flat) =
      Direction.flat := by
  subst h
  norm_num

/-- C7: for a series of positive closes (the data-model invariant) and any
window, a series shorter than `window+1` yields `{flat, 0}`; otherwise the
trend compares `series[0].close` with `series[window].close` (the falsy
fallback never fires), the direction is `up` exactly when the percentage
change exceeds 0.5, `down` exactly when it is below −0.5, a change of
exactly +0.5 % yields `flat`, and an all-equal-closes series yields `flat`
at every window. -/
theorem trend_spec (s : List DailyData) (days : ℕ)
    (hpos : ∀ d ∈ s, 0 < d.close) :
    (s.length < days + 1 → calculateTrend s days = ⟨Direction.flat, 0⟩) ∧
    ((∀ d ∈ s, d.close = (s.getD 0 default).close) →
      (calculateTrend s days).direction = Direction.flat) ∧
    (days + 1 ≤ s.length →
      trendPastPrice s days = (s.getD days default).close ∧
      ((calculateTrend s days).direction = Direction.up ↔
        1 / 2 <
          ((s.getD 0 default).close - (s.getD days default).close) /
            (s.getD days default).close * 100) ∧
      ((calculateTrend s days).direction = Direction.down ↔
        ((s.getD 0 default).close - (s.getD days default).close) /
            (s.getD days default).close * 100 < -(1 / 2)) ∧
      (calculateTrend s days).percentage =
        roundToTwo
          (((s.getD 0 default).close - (s.getD days default).close) /
            (s.getD days default).close * 100) ∧
      (((s.getD 0 default).close - (s.getD days default).close) /
          (s.getD days default).close * 100 = 1 / 2 →
        (calculateTrend s days).direction = Direction.flat)) := by
  have hpp : ∀ _ : days < s.length,
      trendPastPrice s days = (s.getD days default).close := by
    intro hlt
    have hcl : 0 < s[days].close := hpos _ (List.getElem_mem hlt)
    simp only [trendPastPrice, List.getElem?_eq_getElem hlt]
    rw [if_neg (ne_of_gt hcl), getD_eq_getElem s days hlt]
  refine ⟨?_, ?_, ?_⟩
  · intro hlen
    simp only [calculateTrend]
    rw [if_pos hlen]
  · intro hall
    by_cases hlen : s.length < days + 1
    · simp only [calculateTrend]
      rw [if_pos hlen]
    · push_neg at hlen
      have hlt : days < s.length := hlen
      have hc0 : (s.getD days default).close = (s.getD 0 default).close :=
        hall _ (getD_mem s days hlt)
      simp only [calculateTrend]
      rw [if_neg (not_lt.mpr hlen), hpp hlt, hc0]
      simp only [sub_self, zero_div, zero_mul]
      norm_num
  · intro hlen
    have hlt : days < s.length := hlen
    have hct : calculateTrend s days =
        ⟨if ((s.getD 0 default).close - (s.getD days default).close) /
              (s.getD days default).close * 100 > 1 / 2 then Direction.up
          else if ((s.getD 0 default).close - (s.getD days default).close) /
              (s.getD days default).close * 100 < -(1 / 2) then Direction.down
          else Direction.flat,
          roundToTwo
            (((s.getD 0 default).close - (s.getD days default).close) /
              (s.getD days default).close * 100)⟩ := by
      simp only [calculateTrend]
      rw [if_neg (not_lt.mpr hlen), hpp hlt]
    refine ⟨hpp hlt, ?_, ?_, ?_, ?_⟩
    · rw [hct]
      exact direction_if_up _
    · rw [hct]
      exact direction_if_down _
    · rw [hct]
    · intro hhalf
      rw [hct]
      exact direction_if_eq_half _ hhalf

/-- Witness for C7: a +0.5 % change over a 7-day window yields `flat`. -/
theorem trend_spec_witness :
    (calculateTrend halfPctSeries 7).direction = Direction.flat :=
  ((trend_spec halfPctSeries 7 (by decide)).2.2 (by decide)).2.2.2.2
    (by norm_num [halfPctSeries])

/-- C8: the 52-week range is computed over the first `min 252 length`
entries: with fewer than 30 entries both bounds are omitted (`none`);
with 30 or more, the high is the maximum of the `high` fields and the low
the minimum of the `low` fields over that window, each rounded to two
decimals. -/
theorem range52Week_spec (s : List DailyData) :
    (s.length < 30 → calculate52WeekHighLow s = (none, none)) ∧
    (30 ≤ s.length →
      ∃ hi lo,
        calculate52WeekHighLow s =
          (some (roundToTwo hi), some (roundToTwo lo)) ∧
        hi ∈ (s.take (min 252 s.length)).map (·.high) ∧
        (∀ x ∈ (s.take (min 252 s.length)).map (·.high), x ≤ hi) ∧
        lo ∈ (s.take (min 252 s.length)).map (·.low) ∧
        (∀ x ∈ (s.take (min 252 s.length)).map (·.low), lo ≤ x)) := by
  constructor
  · intro h
    have hm : min 252 s.length < 30 :=
      lt_of_le_of_lt (min_le_right 252 s.length) h
    simp only [calculate52WeekHighLow]
    rw [if_pos hm]
  · intro h
    have h30 : 30 ≤ min 252 s.length := le_min (by norm_num) h
    have hlen : (s.take (min 252 s.length)).length = min 252 s.length := by
      rw [List.length_take]
      exact min_eq_left (min_le_right 252 s.length)
    have hne : (s.take (min 252 s.length)).map (·.high) ≠ [] := by
      intro hnil
      have := congrArg List.length hnil
      rw [List.length_map, hlen, List.length_nil] at this
      omega
    have hne' : (s.take (min 252 s.length)).map (·.low) ≠ [] := by
      intro hnil
      have := congrArg List.length hnil
      rw [List.length_map, hlen, List.length_nil] at this
      omega
    refine ⟨listMax ((s.take (min 252 s.length)).map (·.high)),
      listMin ((s.take (min 252 s.length)).map (·.low)), ?_,
      listMax_mem _ hne, fun x hx => le_listMax _ x hx,
      listMin_mem _ hne', fun x hx => listMin_le _ x hx⟩
    simp only [calculate52WeekHighLow]
    rw [if_neg (not_lt.mpr h30)]

/-- Witness for C8: a 29-point series omits both bounds; a 30-point series
yields both bounds. -/
theorem range52Week_spec_witness :
    calculate52WeekHighLow (sampleSeries 29) = (none, none) ∧
    (∃ hi lo,
      calculate52WeekHighLow (sampleSeries 30) =
        (some (roundToTwo hi), some (roundToTwo lo)) ∧
      hi ∈ ((sampleSeries 30).take (min 252 (sampleSeries 30).length)).map
          (·.high) ∧
      (∀ x ∈ ((sampleSeries 30).take
          (min 252 (sampleSeries 30).length)).map (·.high), x ≤ hi) ∧
      lo ∈ ((sampleSeries 30).take (min 252 (sampleSeries 30).length)).map
          (·.low) ∧
      (∀ x ∈ ((sampleSeries 30).take
          (min 252 (sampleSeries 30).length)).map (·.low), lo ≤ x)) :=
  ⟨(range52Week_spec (sampleSeries 29)).1 (by decide),
    (range52Week_spec (sampleSeries 30)).2 (by decide)⟩

/-- C9: `validateSymbol` accepts a string exactly when, after upper-casing,
it has 1 to 10 characters all drawn from uppercase letters, digits and
`'.'` — the language of `[A-Z0-9.]` repeated 1 to 10 times, anchored. -/
theorem validateSymbol_spec (symbol : String) :
    validateSymbol symbol = true ↔
      1 ≤ (symbol.data.map Char.toUpper).length ∧
      (symbol.data.map Char.toUpper).length ≤ 10 ∧
      ∀ c ∈ symbol.data.map Char.toUpper,
        ('A' ≤ c ∧ c ≤ 'Z') ∨ ('0' ≤ c ∧ c ≤ '9') ∨ c = '.' := by
  simp only [validateSymbol, isSymbolChar, Bool.and_eq_true,
    decide_eq_true_eq, List.all_eq_true, Bool.or_eq_true, and_assoc,
    or_assoc]

/-- Witness for C9: `brk.a` upper-cases into the accepted language, so
`validateSymbol` accepts it. -/
theorem validateSymbol_spec_witness : validateSymbol "brk.a" = true :=
  (validateSymbol_spec "brk.a").mpr (by decide)

/-- C10: on a series of strictly positive closes (the data-model price
invariant) the Insight Engine's divisions are safe: the `dayChange`
denominator `series[1].close` is non-zero whenever a second point exists,
and for any window that fits the series the `calculateTrend` denominator
`trendPastPrice` equals `series[window].close` (the falsy fallback to the
last element is unreachable) and is strictly positive. -/
theorem insight_division_safety (s : List DailyData)
    (hpos : ∀ d ∈ s, 0 < d.close) :
    (2 ≤ s.length → (s.getD 1 default).close ≠ 0) ∧
    (∀ days : ℕ, days + 1 ≤ s.length →
      trendPastPrice s days = (s.getD days default).close ∧
      0 < trendPastPrice s days) := by
  constructor
  · intro h2
    exact ne_of_gt (hpos _ (getD_mem s 1 h2))
  · intro days hlen
    have hlt : days < s.length := hlen
    have hcl : 0 < s[days].close := hpos _ (List.getElem_mem hlt)
    have hpp : trendPastPrice s days = (s.getD days default).close := by
      simp only [trendPastPrice, List.getElem?_eq_getElem hlt]
      rw [if_neg (ne_of_gt hcl), getD_eq_getElem s days hlt]
    refine ⟨hpp, ?_⟩
    rw [hpp, getD_eq_getElem s days hlt]
    exact hcl

/-- Witness for C10 on a concrete 8-point positive series at window 7. -/
theorem insight_division_safety_witness :
    trendPastPrice (sampleSeries 8) 7 =
      ((sampleSeries 8).getD 7 default).close ∧
    0 < trendPastPrice (sampleSeries 8) 7 :=
  (insight_division_safety (sampleSeries 8) (by decide)).2 7 (by decide)

lemma runFrom_cons (prev : Option ℕ) (j : Job) (rest : List Job) :
    runFrom prev (j :: rest) =
      ⟨j, startOf prev j, startOf prev j + j.duration, j.result⟩ ::
        runFrom (some (startOf prev j + j.duration)) rest := rfl

lemma runFrom_chain (jobs : List Job) (prev : Option ℕ) :
    List.Chain'
      (fun a b =>
        a.start ≤ a.comp ∧ b.comp = b.start + b.job.duration ∧
        b.start = startOf (some a.comp) b.job)
      (runFrom prev jobs) := by
  induction jobs generalizing prev with
  | nil => exact List.chain'_nil
  | cons j rest ih =>
      rw [runFrom_cons, List.chain'_cons']
      refine ⟨?_, ih _⟩
      intro b hb
      rcases rest with _ | ⟨k, rest'⟩
      · simp [runFrom] at hb
      · rw [runFrom_cons] at hb
        simp only [List.head?_cons, Option.mem_def, Option.some.injEq] at hb
        subst hb
        exact ⟨Nat.le_add_right _ _, rfl, rfl⟩

lemma runFrom_length (prev : Option ℕ) (jobs : List Job) :
    (runFrom prev jobs).length = jobs.length := by
  induction jobs generalizing prev with
  | nil => rfl
  | cons j rest ih =>
      rw [runFrom_cons, List.length_cons, List.length_cons, ih]

lemma runFrom_map_job (prev : Option ℕ) (jobs : List Job) :
    (runFrom prev jobs).map (·.job) = jobs := by
  induction jobs generalizing prev with
  | nil => rfl
  | cons j rest ih =>
      rw [runFrom_cons, List.map_cons, ih]

lemma runFrom_map_settled (prev : Option ℕ) (jobs : List Job) :
    (runFrom prev jobs).map (·.settled) = jobs.map (·.result) := by
  induction jobs generalizing prev with
  | nil => rfl
  | cons j rest ih =>
      rw [runFrom_cons, List.map_cons, List.map_cons, ih]

lemma runFrom_settled_getD (prev : Option ℕ) (jobs : List Job) (i : ℕ)
    (hi : i < jobs.length) :
    ((runFrom prev jobs).getD i default).settled =
      (jobs.getD i default).result := by
  have hlen : i < (runFrom prev jobs).length := by
    rw [runFrom_length]
    exact hi
  rw [getD_eq_getElem _ _ hlen, getD_eq_getElem _ _ hi]
  have hmap := congrArg (fun l => l[i]?) (runFrom_map_settled prev jobs)
  simp only [List.getElem?_map] at hmap
  rw [List.getElem?_eq_getElem hlen, List.getElem?_eq_getElem hi] at hmap
  simpa using hmap

lemma startOf_withOkResult (prev : Option ℕ) (j : Job) :
    startOf prev (withOkResult j) = startOf prev j := by
  cases prev <;> rfl

lemma runFrom_timing (prev : Option ℕ) (jobs : List Job) :
    (runFrom prev (jobs.map withOkResult)).map (fun e => (e.start, e.comp)) =
      (runFrom prev jobs).map (fun e => (e.start, e.comp)) := by
  induction jobs generalizing prev with
  | nil => rfl
  | cons j rest ih =>
      rw [List.map_cons, runFrom_cons, runFrom_cons, List.map_cons,
        List.map_cons, startOf_withOkResult]
      congr 1
      exact ih _

/-- C1 (amended): whenever the next job was already queued when its
predecessor's provider call completed (`arrival ≤ comp`), the two calls
start at least `minRequestInterval` apart.  In particular, a burst of
jobs submitted while the queue is still draining keeps all consecutive
executions ≥ 12 s apart.  The boundary case excluded by the amendment —
a job submitted after the queue has drained empty — is
`dispatcher_gap_counterexample`. -/
theorem dispatcher_min_interval_within_drain (jobs : List Job) (i : ℕ)
    (hi : i + 1 < (runDispatcher jobs).length)
    (hq : ((runDispatcher jobs).getD (i + 1) default).job.arrival ≤
      ((runDispatcher jobs).getD i default).comp) :
    ((runDispatcher jobs).getD i default).start + minRequestInterval ≤
      ((runDispatcher jobs).getD (i + 1) default).start := by
  have hchain := runFrom_chain jobs none
  rw [List.chain'_iff_get] at hchain
  have hi' : i < (runDispatcher jobs).length - 1 := by omega
  have h := hchain i hi'
  simp only [List.get_eq_getElem] at h
  have e1 : (runDispatcher jobs).getD i default = (runDispatcher jobs)[i] :=
    getD_eq_getElem _ _ (by omega)
  have e2 : (runDispatcher jobs).getD (i + 1) default =
      (runDispatcher jobs)[i + 1] :=
    getD_eq_getElem _ _ (by omega)
  rw [e1, e2] at hq ⊢
  obtain ⟨hle, _, hstart⟩ := h
  have hb2 : i + 1 < (runFrom none jobs).length := hi
  have hb1 : i < (runFrom none jobs).length := by omega
  have hq' : (runFrom none jobs)[i + 1].job.arrival ≤
      (runFrom none jobs)[i].comp := hq
  show (runFrom none jobs)[i].start + minRequestInterval ≤
    (runFrom none jobs)[i + 1].start
  rw [hstart]
  simp only [startOf]
  rw [if_pos hq']
  omega

/-- Counterexample to C1 as stated: in `gapJobs` the second job is
submitted 1000 ms after the queue drained empty, and its provider call
starts 2000 ms — far less than 12000 ms — after the first call started. -/
theorem dispatcher_gap_counterexample :
    ((runDispatcher gapJobs).getD 0 default).comp = 1000 ∧
    (gapJobs.getD 1 default).arrival = 2000 ∧
    ((runDispatcher gapJobs).getD 0 default).start = 0 ∧
    ((runDispatcher gapJobs).getD 1 default).start = 2000 ∧
    ((runDispatcher gapJobs).getD 1 default).start -
        ((runDispatcher gapJobs).getD 0 default).start <
      minRequestInterval := by
  decide

/-- Witness for the amended C1 on a concrete two-job burst. -/
theorem dispatcher_min_interval_witness :
    ((runDispatcher burstJobs).getD 0 default).start + minRequestInterval ≤
      ((runDispatcher burstJobs).getD 1 default).start :=
  dispatcher_min_interval_within_drain burstJobs 0 (by decide) (by decide)

/-- C2: the dispatcher executes exactly the submitted jobs in strict FIFO
submission order (the executed-job list is the submission list, and start
times strictly increase along it), and each job's promise settles with
exactly that job's own outcome. -/
theorem dispatcher_fifo_own_outcome (jobs : List Job) :
    (runDispatcher jobs).map (·.job) = jobs ∧
    (runDispatcher jobs).map (·.settled) = jobs.map (·.result) ∧
    List.Chain' (fun a b => a.start < b.start) (runDispatcher jobs) := by
  refine ⟨runFrom_map_job none jobs, runFrom_map_settled none jobs, ?_⟩
  refine List.Chain'.imp ?_ (runFrom_chain jobs none)
  rintro a b ⟨hle, _, hstart⟩
  rw [hstart, startOf]
  by_cases h : b.job.arrival ≤ a.comp
  · rw [if_pos h]
    have hpos : 0 < minRequestInterval := by norm_num [minRequestInterval]
    omega
  · rw [if_neg h]
    push_neg at h
    omega

/-- C3: when the job at position `k` fails, every submitted job still
executes (lengths agree), job `k`'s own future settles with exactly its
error, every other job's future settles with its own outcome, and the
start/completion schedule is identical to the one in which every job
succeeds — failures change no spacing and trigger no retry. -/
theorem dispatcher_failure_isolated (jobs : List Job) (k : ℕ) (e : String)
    (hk : k < jobs.length)
    (hfail : (jobs.getD k default).result = Except.error e) :
    (runDispatcher jobs).length = jobs.length ∧
    ((runDispatcher jobs).getD k default).settled = Except.error e ∧
    (∀ i, i < jobs.length → i ≠ k →
      ((runDispatcher jobs).getD i default).settled =
        (jobs.getD i default).result) ∧
    timing jobs = timing (jobs.map withOkResult) := by
  refine ⟨runFrom_length none jobs, ?_, ?_, ?_⟩
  · rw [show runDispatcher jobs = runFrom none jobs from rfl,
      runFrom_settled_getD none jobs k hk, hfail]
  · intro i hi _
    exact runFrom_settled_getD none jobs i hi
  · exact (runFrom_timing none jobs).symm

/-- Witness for C3 on a three-job burst whose middle job fails. -/
theorem dispatcher_failure_isolated_witness :
    ((runDispatcher mixedJobs).getD 1 default).settled =
      Except.error "boom" ∧
    ((runDispatcher mixedJobs).getD 2 default).settled =
      (mixedJobs.getD 2 default).result :=
  ⟨(dispatcher_failure_isolated mixedJobs 1 "boom" (by decide)
      (by decide)).2.1,
    (dispatcher_failure_isolated mixedJobs 1 "boom" (by decide)
      (by decide)).2.2.1 2 (by decide) (by decide)⟩

lemma find?_unique_fresh (cache : List CacheRow) (now : ℕ)
    (symbol dataType : String) (r : CacheRow) (hr : r ∈ cache)
    (hmatch : rowMatches symbol dataType r = true)
    (hfresh : now - hours24 ≤ r.fetched_at)
    (huniq : ∀ r' ∈ cache, rowMatches symbol dataType r' = true → r' = r) :
    cache.find?
        (fun x => rowMatches symbol dataType x &&
          now - hours24 ≤ x.fetched_at) =
      some r := by
  induction cache with
  | nil => cases hr
  | cons c rest ih =>
      rw [List.find?_cons]
      by_cases hc : (rowMatches symbol dataType c &&
          decide (now - hours24 ≤ c.fetched_at)) = true
      · rw [hc]
        have hcm : rowMatches symbol dataType c = true :=
          (Bool.and_eq_true _ _ ▸ hc).1
        rw [huniq c (List.mem_cons_self c rest) hcm]
      · have hcf : (rowMatches symbol dataType c &&
            decide (now - hours24 ≤ c.fetched_at)) = false := by
          simpa using hc
        rw [hcf]
        refine ih ?_ fun r' hr' hm' =>
          huniq r' (List.mem_cons_of_mem c hr') hm'
        rcases List.mem_cons.mp hr with rfl | h'
        · exact absurd (by rw [hmatch]; simpa using hfresh) hc
        · exact h'

/-- C4: reads through the cache-aside fetcher.  A payload the cache store
returns is passed through: normalized, marked `fromCache = true`, with no
dispatcher submission and the world untouched.  A cache row for the key
that is fresh (`fetched_at ≥ now − 24h`) and unique is what the store
returns; if every row for the key is older than 24 hours (in particular
if there is none) the read is a miss; and a miss whose provider fetch
succeeds submits exactly one dispatcher job and returns the fresh payload
normalized with `fromCache = false`, caching it. -/
theorem cache_aside_hit_miss (w : World) (symbol : String) :
    (∀ p, getCachedStockData w symbol "TIME_SERIES_DAILY" = some p →
      getDailyTimeSeries w symbol =
        (Except.ok ⟨p.metaSymbol, p.lastRefreshed,
          normalizeTimeSeriesData p.timeSeries, true⟩, 0, w)) ∧
    (∀ r ∈ w.cache, rowMatches symbol "TIME_SERIES_DAILY" r = true →
      w.now - hours24 ≤ r.fetched_at →
      (∀ r' ∈ w.cache, rowMatches symbol "TIME_SERIES_DAILY" r' = true →
        r' = r) →
      getCachedStockData w symbol "TIME_SERIES_DAILY" = some r.data) ∧
    ((∀ r ∈ w.cache, rowMatches symbol "TIME_SERIES_DAILY" r = true →
        r.fetched_at < w.now - hours24) →
      getCachedStockData w symbol "TIME_SERIES_DAILY" = none) ∧
    (∀ p, getCachedStockData w symbol "TIME_SERIES_DAILY" = none →
      w.fetchResult symbol = Except.ok p →
      getDailyTimeSeries w symbol =
        (Except.ok ⟨p.metaSymbol, p.lastRefreshed,
          normalizeTimeSeriesData p.timeSeries, false⟩, 1,
          cacheStockData w symbol "TIME_SERIES_DAILY" p)) := by
  refine ⟨?_, ?_, ?_, ?_⟩
  · intro p hp
    simp only [getDailyTimeSeries]
    rw [hp]
  · intro r hr hmatch hfresh huniq
    simp only [getCachedStockData]
    rw [find?_unique_fresh w.cache w.now symbol "TIME_SERIES_DAILY" r hr
      hmatch hfresh huniq]
    rfl
  · intro hstale
    simp only [getCachedStockData, Option.map_eq_none']
    rw [List.find?_eq_none]
    intro x hx
    simp only [Bool.and_eq_true, decide_eq_true_eq, not_and]
    intro hmx hfx
    exact absurd hfx (by have := hstale x hx hmx; omega)
  · intro p hmiss hfetch
    simp only [getDailyTimeSeries]
    rw [hmiss, hfetch]

/-- Witness for C4: a fresh cached row is served with `fromCache = true`
and zero dispatcher submissions; a 25-hour-old row is a miss. -/
theorem cache_aside_hit_miss_witness :
    getDailyTimeSeries hitWorld "AAPL" =
      (Except.ok ⟨samplePayload.metaSymbol, samplePayload.lastRefreshed,
        normalizeTimeSeriesData samplePayload.timeSeries, true⟩,
        0, hitWorld) ∧
    getCachedStockData staleWorld "AAPL" "TIME_SERIES_DAILY" = none :=
  ⟨(cache_aside_hit_miss hitWorld "AAPL").1 samplePayload (by decide),
    (cache_aside_hit_miss staleWorld "AAPL").2.2.1 (by decide)⟩

/-- C5: a failure of the cache write after a successful miss-path fetch is
swallowed: the caller still receives the fresh normalized result with
`fromCache = false`, the world is left unchanged, and the caller-visible
outcome is identical to the one of a world whose cache writes succeed. -/
theorem cache_write_failure_swallowed (w : World) (symbol : String)
    (p : Payload)
    (hmiss : getCachedStockData w symbol "TIME_SERIES_DAILY" = none)
    (hfetch : w.fetchResult symbol = Except.ok p)
    (hfail : w.cacheWriteOk = false) :
    (getDailyTimeSeries w symbol).1 =
      Except.ok ⟨p.metaSymbol, p.lastRefreshed,
        normalizeTimeSeriesData p.timeSeries, false⟩ ∧
    (getDailyTimeSeries w symbol).2.2 = w ∧
    (getDailyTimeSeries w symbol).1 =
      (getDailyTimeSeries { w with cacheWriteOk := true } symbol).1 := by
  have hmiss' :
      getCachedStockData { w with cacheWriteOk := true } symbol
        "TIME_SERIES_DAILY" = none := hmiss
  have hfetch' :
      ({ w with cacheWriteOk := true } : World).fetchResult symbol =
        Except.ok p := hfetch
  refine ⟨?_, ?_, ?_⟩
  · simp only [getDailyTimeSeries]
    rw [hmiss, hfetch]
  · simp only [getDailyTimeSeries]
    rw [hmiss, hfetch]
    simp [cacheStockData, hfail]
  · simp only [getDailyTimeSeries]
    rw [hmiss, hfetch, hmiss']

/-- Witness for C5: in `missWorld` cache writes fail, yet the read returns
the fresh payload with `fromCache = false`. -/
theorem cache_write_failure_swallowed_witness :
    (getDailyTimeSeries missWorld "AAPL").1 =
      Except.ok ⟨freshPayload.metaSymbol, freshPayload.lastRefreshed,
        normalizeTimeSeriesData freshPayload.timeSeries, false⟩ :=
  (cache_write_failure_swallowed missWorld "AAPL" freshPayload (by decide)
      (by decide) (by decide)).1

end StockApp
